import Mathlib

/-!
# Verification of the file.sh chunked-crypto and transfer state machine

Shallow embedding of the browser-side core of the `file.sh` repository:
the chunk splitter (`prepareFileChunks`), the AES-GCM stream cipher
wrappers (`encryptFile`, `encryptLargeFile`, `encryptStreamingLargeFile`),
the reassembly/decryption engine (`decryptChunkedFile`), the upload
worker loop of `uploadFile` / `handleResumeUpload`, the download loop of
`processDownload`, and the persistent store operation
`UploadStore.saveUploadState`.

Byte sequences are modelled as `List Nat` (entries are byte values; the
model does not need the 0..255 bound, list operations are value
agnostic).  `Blob.slice` has exactly the clamping take/drop semantics
used here.  The WebCrypto AES-GCM primitive (`window.crypto.subtle`) is
external to the repository; the code is embedded parameterised over the
primitive, and theorems instantiate it with an idealized AEAD model
(`toyEnc` / `toyDec`) in which the 16-byte authentication tag determines
tampering exactly: decryption succeeds precisely on well-tagged inputs.
-/

namespace FileSh

/-! ## List helper lemmas -/

theorem getD_append_left {a b : List Nat} {j : Nat} (h : j < a.length) (d : Nat) :
    (a ++ b).getD j d = a.getD j d := by
  induction a generalizing j with
  | nil => simp at h
  | cons x xs ih =>
    cases j with
    | zero => rfl
    | succ j =>
      simp only [List.cons_append, List.getD_cons_succ]
      exact ih (by simpa using h)

theorem getD_append_right {a b : List Nat} {j : Nat} (h : a.length ≤ j) (d : Nat) :
    (a ++ b).getD j d = b.getD (j - a.length) d := by
  induction a generalizing j with
  | nil => simp
  | cons x xs ih =>
    cases j with
    | zero => simp at h
    | succ j =>
      simp only [List.cons_append, List.getD_cons_succ, List.length_cons]
      rw [ih (by simpa using h)]
      simp [Nat.succ_sub_succ]

theorem set_append_left {a b : List Nat} {j : Nat} (h : j < a.length) (v : Nat) :
    (a ++ b).set j v = a.set j v ++ b := by
  induction a generalizing j with
  | nil => simp at h
  | cons x xs ih =>
    cases j with
    | zero => rfl
    | succ j =>
      simp only [List.cons_append, List.set_cons_succ]
      rw [ih (by simpa using h)]

theorem set_append_right {a b : List Nat} {j : Nat} (h : a.length ≤ j) (v : Nat) :
    (a ++ b).set j v = a ++ b.set (j - a.length) v := by
  induction a generalizing j with
  | nil => simp
  | cons x xs ih =>
    cases j with
    | zero => simp at h
    | succ j =>
      simp only [List.cons_append, List.set_cons_succ, List.length_cons]
      rw [ih (by simpa using h)]
      simp [Nat.succ_sub_succ]

theorem getD_set_self {l : List Nat} {j : Nat} (h : j < l.length) (v d : Nat) :
    (l.set j v).getD j d = v := by
  induction l generalizing j with
  | nil => simp at h
  | cons x xs ih =>
    cases j with
    | zero => rfl
    | succ j => exact ih (by simpa using h)

theorem set_ne_of_getD_ne {l : List Nat} {j v : Nat} (h : j < l.length)
    (hv : v ≠ l.getD j 0) : l.set j v ≠ l := by
  intro he
  exact hv (by rw [← getD_set_self h v 0, he])

/-! ## Chunk Splitter

Embeds `prepareFileChunks` (uploadStore.ts):
`totalChunks = Math.ceil(file.size / chunkSize)`, chunk `i` is
`file.slice(i * chunkSize, Math.min(file.size, i * chunkSize + chunkSize))`.
The indexed loop is rendered as a map over `List.range`; `Blob.slice`
clamping is the take/drop semantics. -/

def slicesOf (blob : List Nat) (s : Nat) : List (List Nat) :=
  (List.range ((blob.length + s - 1) / s)).map fun i => (blob.drop (i * s)).take s

/-- `prepareFileChunks` from `uploadStore.ts` (source lines 114-132);
the `console.log` calls are side-effect free and omitted. -/
def prepareFileChunks (file : List Nat) (chunkSize : Nat) : List (List Nat) :=
  slicesOf file chunkSize

theorem ceil_div_pos {n s : Nat} (hs : 0 < s) (hn : 0 < n) : 0 < (n + s - 1) / s := by
  have h1 : 1 * s ≤ n + s - 1 := by omega
  exact Nat.lt_of_lt_of_le (by omega) (Nat.le_div_iff_mul_le hs |>.mpr h1)

theorem ceil_div_succ {n s : Nat} (hs : 0 < s) (hn : 0 < n) :
    (n + s - 1) / s = (n - s + s - 1) / s + 1 := by
  rcases Nat.le_total n s with h | h
  · have e1 : n + s - 1 = (n - 1) + s := by omega
    have h1 : (n - 1) / s = 0 := Nat.div_eq_of_lt (by omega)
    have h2 : n - s = 0 := by omega
    have h3 : (0 + s - 1) / s = 0 := Nat.div_eq_of_lt (by omega)
    rw [e1, Nat.add_div_right _ hs, h1, h2, h3]
  · have h1 : n + s - 1 = (n - s + s - 1) + s := by omega
    rw [h1, Nat.add_div_right _ hs]

theorem slicesOf_nil {s : Nat} : slicesOf [] s = [] := by
  have h : (([] : List Nat).length + s - 1) / s = 0 := by
    rcases Nat.eq_zero_or_pos s with h0 | h0
    · subst h0; rfl
    · exact Nat.div_eq_of_lt (by simp; omega)
  unfold slicesOf
  rw [h]
  rfl

theorem slicesOf_cons {b : List Nat} {s : Nat} (hs : 0 < s) (hb : 0 < b.length) :
    slicesOf b s = b.take s :: slicesOf (b.drop s) s := by
  unfold slicesOf
  rw [List.length_drop, ceil_div_succ hs hb, List.range_succ_eq_map]
  simp only [List.map_cons, List.map_map, Nat.zero_mul, List.drop_zero]
  congr 1
  apply List.map_congr_left
  intro i _
  simp only [Function.comp_apply]
  rw [List.drop_drop]
  congr 2
  rw [Nat.succ_mul]
  ring

theorem flatten_slicesOf_aux {s : Nat} (hs : 0 < s) :
    ∀ (n : Nat) (b : List Nat), b.length ≤ n → (slicesOf b s).flatten = b := by
  intro n
  induction n with
  | zero =>
    intro b hb
    have : b = [] := List.length_eq_zero.mp (by omega)
    subst this
    simp [slicesOf_nil]
  | succ n ih =>
    intro b hb
    rcases Nat.eq_zero_or_pos b.length with h0 | h0
    · have : b = [] := List.length_eq_zero.mp h0
      subst this
      simp [slicesOf_nil]
    · rw [slicesOf_cons hs h0, List.flatten_cons,
        ih (b.drop s) (by simp [List.length_drop]; omega)]
      exact List.take_append_drop s b

theorem flatten_slicesOf {b : List Nat} {s : Nat} (hs : 0 < s) :
    (slicesOf b s).flatten = b :=
  flatten_slicesOf_aux hs b.length b le_rfl

theorem slicesOf_length {b : List Nat} {s : Nat} :
    (slicesOf b s).length = (b.length + s - 1) / s := by
  simp [slicesOf]

theorem lt_ceil_iff {L s k : Nat} (hs : 0 < s) : k < (L + s - 1) / s ↔ k * s < L := by
  rw [Nat.lt_iff_add_one_le, Nat.le_div_iff_mul_le hs, Nat.succ_mul]
  omega

theorem ceil_shift {L s : Nat} (hs : 0 < s) (hL : 0 < L) :
    (L + s - 1) / s = (L - 1) / s + 1 := by
  have h1 : L + s - 1 = (L - 1) + s := by omega
  rw [h1, Nat.add_div_right _ hs]

theorem mod_pred {L s : Nat} (hs : 0 < s) (hL : 0 < L) :
    1 + (L - 1) % s = if L % s = 0 then s else L % s := by
  have hd := Nat.div_add_mod L s
  have hr : L % s < s := Nat.mod_lt _ hs
  by_cases hr0 : L % s = 0
  · have hsl : s ≤ L := by
      by_contra hcon
      push_neg at hcon
      rw [Nat.mod_eq_of_lt hcon] at hr0
      omega
    have hq : 0 < L / s := Nat.div_pos hsl hs
    have hsq : s * (L / s) = s * (L / s - 1) + s := by
      rcases Nat.exists_eq_add_of_le hq with ⟨q, hq2⟩
      rw [hq2, Nat.add_sub_cancel_left, Nat.mul_add, Nat.mul_one]
      omega
    have he : L - 1 = (s - 1) + (L / s - 1) * s := by
      rw [Nat.mul_comm]
      omega
    rw [he, Nat.add_mul_mod_self_right, Nat.mod_eq_of_lt (by omega)]
    simp [hr0]
    omega
  · have he : L - 1 = (L % s - 1) + (L / s) * s := by
      rw [Nat.mul_comm]
      omega
    rw [he, Nat.add_mul_mod_self_right, Nat.mod_eq_of_lt (by omega)]
    simp [hr0]
    omega

theorem slicesOf_dropLast_length {b : List Nat} {s : Nat} (hs : 0 < s) :
    ∀ c ∈ (slicesOf b s).dropLast, c.length = s := by
  intro c hc
  unfold slicesOf at hc
  rcases Nat.eq_zero_or_pos ((b.length + s - 1) / s) with h0 | h0
  · rw [h0] at hc
    simp at hc
  · rcases Nat.exists_eq_add_of_le h0 with ⟨t, ht⟩
    rw [show (b.length + s - 1) / s = t + 1 by omega, List.range_succ, List.map_append,
      List.map_cons, List.map_nil, List.dropLast_concat, List.mem_map] at hc
    rcases hc with ⟨i, hi, hci⟩
    rw [List.mem_range] at hi
    have hi1 : (i + 1) * s < b.length := by
      rw [← lt_ceil_iff hs]
      omega
    rw [← hci, List.length_take, List.length_drop]
    rw [Nat.succ_mul] at hi1
    omega

theorem slicesOf_getLast_length {b : List Nat} {s : Nat} (hs : 0 < s) (hb : 0 < b.length) :
    (slicesOf b s).getLast?.map List.length =
      some (if b.length % s = 0 then s else b.length % s) := by
  unfold slicesOf
  have h0 : 0 < (b.length + s - 1) / s := ceil_div_pos hs hb
  rcases Nat.exists_eq_add_of_le h0 with ⟨t, ht⟩
  rw [show (b.length + s - 1) / s = t + 1 by omega, List.range_succ, List.map_append,
    List.map_cons, List.map_nil, List.getLast?_concat]
  have htv : t = (b.length - 1) / s := by
    have := ceil_shift hs hb
    omega
  have hts : t * s < b.length := by
    rw [← lt_ceil_iff hs]
    omega
  have htmul : t * s = b.length - 1 - (b.length - 1) % s := by
    have hd := Nat.div_add_mod (b.length - 1) s
    rw [htv, Nat.mul_comm]
    omega
  have hlen : ((b.drop (t * s)).take s).length = 1 + (b.length - 1) % s := by
    have hmod : (b.length - 1) % s < s := Nat.mod_lt _ hs
    have hmle : (b.length - 1) % s ≤ b.length - 1 := Nat.mod_le _ _
    rw [List.length_take, List.length_drop, htmul]
    omega
  simp only [Option.map_some']
  rw [hlen, mod_pred hs hb]

/-! ## Idealized AEAD primitive

`window.crypto.subtle.encrypt/decrypt` with AES-GCM is a browser
primitive external to the repository.  Modelled from the spec: an AEAD
scheme whose output is `ciphertext body ++ 16-byte authentication tag`
(the body here is the plaintext itself; confidentiality is irrelevant to
the claims) and whose decryption succeeds exactly on well-tagged input.
The tag is a position-weighted checksum of key, IV and plaintext, which
makes detection of any single-position modification provable. -/

def wsum : List Nat → Nat → Nat
  | [], _ => 0
  | x :: xs, i => (i + 1) * x + wsum xs (i + 1)

def toyTag (key iv pt : List Nat) : Nat := wsum (key ++ iv ++ pt) 0

def toyEnc (key iv pt : List Nat) : List Nat :=
  pt ++ toyTag key iv pt :: List.replicate 15 0

def toyDec (key iv ct : List Nat) : Option (List Nat) :=
  if 16 ≤ ct.length ∧
      ct.drop (ct.length - 16) = toyTag key iv (ct.take (ct.length - 16)) :: List.replicate 15 0
  then some (ct.take (ct.length - 16)) else none

theorem toyEnc_length {key iv pt : List Nat} : (toyEnc key iv pt).length = pt.length + 16 := by
  simp [toyEnc]

theorem toyDec_toyEnc {key iv pt : List Nat} : toyDec key iv (toyEnc key iv pt) = some pt := by
  unfold toyDec
  have hlen : (toyEnc key iv pt).length - 16 = pt.length := by
    rw [toyEnc_length]
    omega
  have htake : (toyEnc key iv pt).take ((toyEnc key iv pt).length - 16) = pt := by
    rw [hlen]
    exact List.take_left pt _
  have hdrop : (toyEnc key iv pt).drop ((toyEnc key iv pt).length - 16) =
      toyTag key iv pt :: List.replicate 15 0 := by
    rw [hlen]
    exact List.drop_left pt _
  rw [if_pos ⟨by rw [toyEnc_length]; omega, by rw [htake, hdrop]⟩, htake]

theorem toyDec_some {key iv ct q : List Nat} (h : toyDec key iv ct = some q) :
    16 ≤ ct.length ∧ q.length = ct.length - 16 := by
  unfold toyDec at h
  split at h
  · next hcond =>
    obtain ⟨h16, _⟩ := hcond
    refine ⟨h16, ?_⟩
    have := congrArg (Option.map List.length) h
    simp [List.length_take] at this
    omega
  · exact absurd h (by simp)

theorem toyDec_short {key iv ct : List Nat} (h : ct.length < 16) : toyDec key iv ct = none := by
  unfold toyDec
  rw [if_neg]
  intro hc
  omega

theorem wsum_set {xs : List Nat} {j : Nat} (v : Nat) (hj : j < xs.length) :
    ∀ i, wsum (xs.set j v) i + (i + j + 1) * xs.getD j 0 = wsum xs i + (i + j + 1) * v := by
  induction xs generalizing j with
  | nil => simp at hj
  | cons x xs ih =>
    intro i
    cases j with
    | zero =>
      simp only [List.set_cons_zero, List.getD_cons_zero, wsum]
      ring
    | succ j =>
      simp only [List.set_cons_succ, List.getD_cons_succ, wsum]
      have := ih (by simpa using hj) (i + 1)
      have harr : i + 1 + j + 1 = i + (j + 1) + 1 := by omega
      rw [harr] at this
      omega

theorem wsum_set_ne {xs : List Nat} {j v : Nat} (hj : j < xs.length)
    (hv : v ≠ xs.getD j 0) : wsum (xs.set j v) 0 ≠ wsum xs 0 := by
  intro he
  have h := wsum_set v hj 0
  rw [he] at h
  have : (0 + j + 1) * xs.getD j 0 = (0 + j + 1) * v := by omega
  exact hv (by
    have := Nat.eq_of_mul_eq_mul_left (by omega : 0 < 0 + j + 1) this
    omega)

theorem toyTag_set_iv {key iv pt : List Nat} {j v : Nat} (hj : j < iv.length)
    (hv : v ≠ iv.getD j 0) : toyTag key (iv.set j v) pt ≠ toyTag key iv pt := by
  unfold toyTag
  have he1 : key ++ iv.set j v ++ pt = (key ++ iv ++ pt).set (key.length + j) v := by
    rw [List.append_assoc, List.append_assoc,
      set_append_right (by omega), Nat.add_sub_cancel_left,
      set_append_left hj]
  have he2 : (key ++ iv ++ pt).getD (key.length + j) 0 = iv.getD j 0 := by
    rw [List.append_assoc, getD_append_right (by omega), Nat.add_sub_cancel_left,
      getD_append_left hj]
  rw [he1]
  exact wsum_set_ne (by simp; omega) (by rw [he2]; exact hv)

theorem toyTag_set_pt {key iv pt : List Nat} {j v : Nat} (hj : j < pt.length)
    (hv : v ≠ pt.getD j 0) : toyTag key iv (pt.set j v) ≠ toyTag key iv pt := by
  unfold toyTag
  have he1 : key ++ iv ++ pt.set j v = (key ++ iv ++ pt).set ((key ++ iv).length + j) v := by
    rw [set_append_right (by omega), Nat.add_sub_cancel_left]
  have he2 : (key ++ iv ++ pt).getD ((key ++ iv).length + j) 0 = pt.getD j 0 := by
    rw [getD_append_right (by omega), Nat.add_sub_cancel_left]
  rw [he1]
  exact wsum_set_ne (by simp; omega) (by rw [he2]; exact hv)

/-! ## Stream Cipher Engine (crypto.ts)

The functions take the AEAD primitive `enc` as an explicit parameter;
in the source it is `window.crypto.subtle.encrypt` with the AES-GCM
algorithm.  The random IV generated by `crypto.getRandomValues` is also
passed as a parameter.  `Error` throws are irrelevant here since the
embedded primitive is total. -/

def IV_LENGTH : Nat := 12

def SEGMENT_SIZE : Nat := 100 * 1024 * 1024

def CHUNK_READ_SIZE : Nat := 50 * 1024 * 1024

/-- `encryptStreamingLargeFile` (crypto.ts lines 499-625): files over
500 MB are split into 100 MB segments and each segment is passed to its
own `crypto.subtle.encrypt` call with the same IV; the IV is prepended
to the first encrypted segment and everything is concatenated into the
output blob. -/
def encryptStreamingLargeFile (enc : List Nat → List Nat → List Nat → List Nat)
    (key iv file : List Nat) : List Nat :=
  iv ++ enc key iv (file.take SEGMENT_SIZE) ++
    ((List.range ((file.length + SEGMENT_SIZE - 1) / SEGMENT_SIZE - 1)).map fun j =>
      enc key iv ((file.drop ((j + 1) * SEGMENT_SIZE)).take SEGMENT_SIZE)).flatten

/-- `encryptLargeFile` (crypto.ts lines 429-493): reads the file in
50 MB slices into one preallocated buffer (modelled as the flattened
slices, which reconstruct the file exactly) and performs a single
encrypt call over it; above 500 MB it delegates to
`encryptStreamingLargeFile`. -/
def encryptLargeFile (enc : List Nat → List Nat → List Nat → List Nat)
    (key iv file : List Nat) : List Nat :=
  if 500 * 1024 * 1024 < file.length then encryptStreamingLargeFile enc key iv file
  else iv ++ enc key iv (slicesOf file CHUNK_READ_SIZE).flatten

/-- `encryptFile` (crypto.ts lines 385-423): one AEAD call over the
whole file content with the freshly generated IV for files up to 25 MB,
prepending the IV to the ciphertext; larger files go through
`encryptLargeFile`. -/
def encryptFile (enc : List Nat → List Nat → List Nat → List Nat)
    (key iv file : List Nat) : List Nat :=
  if 25 * 1024 * 1024 < file.length then encryptLargeFile enc key iv file
  else iv ++ enc key iv file

/-- Number of `crypto.subtle.encrypt` invocations performed by
`encryptFile` on a file of the given size, read off the branch
structure above: one call on the direct path (≤ 25 MB) and on the
chunked-read path (≤ 500 MB), one call per 100 MB segment on the
streaming path. -/
def encryptAEADCalls (fileLen : Nat) : Nat :=
  if 25 * 1024 * 1024 < fileLen then
    if 500 * 1024 * 1024 < fileLen then (fileLen + SEGMENT_SIZE - 1) / SEGMENT_SIZE
    else 1
  else 1

theorem encryptFile_single {enc : List Nat → List Nat → List Nat → List Nat}
    {key iv file : List Nat} (h : file.length ≤ 500 * 1024 * 1024) :
    encryptFile enc key iv file = iv ++ enc key iv file := by
  unfold encryptFile encryptLargeFile
  rcases Nat.le_total file.length (25 * 1024 * 1024) with h25 | h25
  · have hn : ¬ (25 * 1024 * 1024 < file.length) := by omega
    rw [if_neg hn]
  · have hp : 25 * 1024 * 1024 < file.length ∨ file.length = 25 * 1024 * 1024 := by omega
    rcases hp with hp | hp
    · have hn : ¬ (500 * 1024 * 1024 < file.length) := by omega
      rw [if_pos hp, if_neg hn, flatten_slicesOf (by decide)]
    · have hn : ¬ (25 * 1024 * 1024 < file.length) := by omega
      rw [if_neg hn]

theorem encryptFile_take_iv (enc : List Nat → List Nat → List Nat → List Nat)
    (key file : List Nat) {iv : List Nat} (hiv : iv.length = 12) :
    (encryptFile enc key iv file).take 12 = iv := by
  have hpre : ∀ r : List Nat, (iv ++ r).take 12 = iv := by
    intro r
    rw [← hiv]
    exact List.take_left iv r
  unfold encryptFile
  split
  · unfold encryptLargeFile
    split
    · unfold encryptStreamingLargeFile
      rw [List.append_assoc]
      exact hpre _
    · exact hpre _
  · exact hpre _

/-! ## Reassembly and Decryption Engine (crypto.ts decryptChunkedFile)

`decryptChunkedFile` (crypto.ts lines 1101-1293), parameterised over the
AEAD decryption primitive `dec` (`crypto.subtle.decrypt`).  A `none`
result models a thrown error (`DecryptionError`); `some pt` models a
successful return of plaintext `pt`.

* The reassembly loop copies chunk 0 without its first 12 bytes (IV) and
  every later chunk in full into one buffer (`finalEncryptedData`); with
  exact sizes the defensive buffer-regrow/trim branches never fire, so
  it is the flattened concatenation.
* Approach 1 (lines 1179-1192): direct single-shot decrypt.
* Approach 2 (lines 1196-1214): only if the data is longer than 16
  bytes, retry with the last 16 bytes ("auth tag") removed.
* Approach 3 (lines 1217-1261): first-chunk-only retry when chunk 0 has
  content past the IV; a thrown failure aborts the whole try-block, so
  the two-chunk retry is reached only when chunk 0 is exactly the IV.
* Approach 4 (lines 1264-1288): re-derive IV and content from the raw
  concatenation of all chunks and decrypt; a failure here is the final
  thrown `DecryptionError`. -/
/-- The try/catch cascade of the source: return the first successful
decryption attempt, fall through to the next approach on failure. -/
def firstSome (a b : Option (List Nat)) : Option (List Nat) :=
  match a with
  | some pt => some pt
  | none => b

def decryptChunkedFile (dec : List Nat → List Nat → List Nat → Option (List Nat))
    (key : List Nat) (encryptedChunks : List (List Nat)) : Option (List Nat) :=
  match encryptedChunks with
  | [] => none
  | c0 :: rest =>
    if c0.length < IV_LENGTH then none
    else
      firstSome (dec key (c0.take IV_LENGTH) (c0.drop IV_LENGTH ++ rest.flatten))
        (firstSome (if 16 < (c0.drop IV_LENGTH ++ rest.flatten).length then
                dec key (c0.take IV_LENGTH)
                  ((c0.drop IV_LENGTH ++ rest.flatten).take
                    ((c0.drop IV_LENGTH ++ rest.flatten).length - 16))
              else none)
          (firstSome (if 0 < (c0.drop IV_LENGTH).length then
                  dec key (c0.take IV_LENGTH) (c0.drop IV_LENGTH)
                else
                  match rest with
                  | [] => none
                  | c1 :: _ => dec key (c0.take IV_LENGTH) (c0.drop IV_LENGTH ++ c1))
            (dec key ((c0 :: rest).flatten.take IV_LENGTH)
              ((c0 :: rest).flatten.drop IV_LENGTH))))

theorem firstSome_eq_some {a b : Option (List Nat)} {x : List Nat}
    (h : firstSome a b = some x) : a = some x ∨ (a = none ∧ b = some x) := by
  cases a with
  | none => exact Or.inr ⟨rfl, h⟩
  | some y => exact Or.inl h

theorem firstSome_some {b : Option (List Nat)} {x : List Nat} :
    firstSome (some x) b = some x := rfl

theorem firstSome_none {b : Option (List Nat)} : firstSome none b = b := rfl

theorem take_of_take_chunk {x : List Nat} {s : Nat} (hs12 : 12 ≤ s) :
    (x.take s).take 12 = x.take 12 := by
  rw [List.take_take, Nat.min_eq_left hs12]

theorem reassemble_drop {x : List Nat} {s : Nat} (hs12 : 12 ≤ s) (hx : 12 ≤ x.length) :
    (x.take s).drop 12 ++ (slicesOf (x.drop s) s).flatten = x.drop 12 := by
  rw [flatten_slicesOf (show 0 < s by omega)]
  conv_rhs => rw [← List.take_append_drop s x]
  rw [List.drop_append_eq_append_drop]
  have h0 : 12 - (x.take s).length = 0 := by
    rw [List.length_take]
    omega
  rw [h0, List.drop_zero]

/-- A single-bit flip at byte position `p` of a byte sequence: the value
at `p` has bit `j` inverted. -/
def tamperBit (l : List Nat) (p j : Nat) : List Nat :=
  l.set p (l.getD p 0 ^^^ 2 ^ j)

theorem xor_pow_ne (x j : Nat) : x ^^^ 2 ^ j ≠ x := by
  intro h
  have h2 : x ^^^ (x ^^^ 2 ^ j) = x ^^^ x := congrArg (x ^^^ ·) h
  rw [← Nat.xor_assoc, Nat.xor_self, Nat.zero_xor] at h2
  have hpos : 0 < 2 ^ j := Nat.pos_pow_of_pos j (by omega)
  omega

/-- Any change of a single byte of the stream `iv ++ toyEnc key iv pt`
(whether inside the IV, the ciphertext body, or the 16-byte tag) makes
the direct single-shot AEAD decryption fail. -/
theorem toyDec_tamper {key iv pt : List Nat} (hiv : iv.length = 12) {p v : Nat}
    (hp : p < 12 + (pt.length + 16)) (hv : v ≠ (iv ++ toyEnc key iv pt).getD p 0) :
    toyDec key (((iv ++ toyEnc key iv pt).set p v).take 12)
      (((iv ++ toyEnc key iv pt).set p v).drop 12) = none := by
  have hB : (toyEnc key iv pt).length = pt.length + 16 := toyEnc_length
  rcases Nat.lt_or_ge p 12 with hcase | hcase
  · -- tamper inside the IV
    have hset : (iv ++ toyEnc key iv pt).set p v = iv.set p v ++ toyEnc key iv pt :=
      set_append_left (by omega) v
    have hl : (iv.set p v).length = 12 := by rw [List.length_set, hiv]
    have htake : (iv.set p v ++ toyEnc key iv pt).take 12 = iv.set p v := by
      rw [← hl]
      exact List.take_left _ _
    have hdrop : (iv.set p v ++ toyEnc key iv pt).drop 12 = toyEnc key iv pt := by
      rw [← hl]
      exact List.drop_left _ _
    rw [hset, htake, hdrop]
    have hvv : v ≠ iv.getD p 0 := fun he => hv (by
      rw [getD_append_left (show p < iv.length by omega) 0]
      exact he)
    have htag : toyTag key (iv.set p v) pt ≠ toyTag key iv pt :=
      toyTag_set_iv (by omega) hvv
    unfold toyDec
    rw [if_neg]
    intro hcond
    obtain ⟨h16, heq⟩ := hcond
    have hm : (toyEnc key iv pt).length - 16 = pt.length := by omega
    rw [hm, toyEnc, List.drop_left, List.take_left] at heq
    exact htag (by injection heq with h1 _; exact h1.symm)
  · -- tamper past the IV
    have hset : (iv ++ toyEnc key iv pt).set p v =
        iv ++ (toyEnc key iv pt).set (p - 12) v := by
      rw [set_append_right (by omega) v, hiv]
    have hl : ((toyEnc key iv pt).set (p - 12) v).length = pt.length + 16 := by
      rw [List.length_set, hB]
    have htake : (iv ++ (toyEnc key iv pt).set (p - 12) v).take 12 = iv := by
      rw [← hiv]
      exact List.take_left _ _
    have hdrop : (iv ++ (toyEnc key iv pt).set (p - 12) v).drop 12 =
        (toyEnc key iv pt).set (p - 12) v := by
      rw [← hiv]
      exact List.drop_left _ _
    rw [hset, htake, hdrop]
    have hvB : v ≠ (toyEnc key iv pt).getD (p - 12) 0 := fun he => hv (by
      rw [getD_append_right (show iv.length ≤ p by omega) 0, hiv]
      exact he)
    rcases Nat.lt_or_ge (p - 12) pt.length with hq | hq
    · -- tamper inside the ciphertext body
      have hsetB : (toyEnc key iv pt).set (p - 12) v =
          pt.set (p - 12) v ++ toyTag key iv pt :: List.replicate 15 0 :=
        set_append_left hq v
      have hvpt : v ≠ pt.getD (p - 12) 0 := fun he => hvB (by
        simp only [toyEnc]
        rw [getD_append_left (show p - 12 < pt.length by omega) 0]
        exact he)
      have hlp : (pt.set (p - 12) v).length = pt.length := List.length_set pt _ _
      unfold toyDec
      rw [if_neg]
      intro hcond
      obtain ⟨h16, heq⟩ := hcond
      rw [hsetB] at heq
      have hm : (pt.set (p - 12) v ++ toyTag key iv pt :: List.replicate 15 0).length - 16 =
          (pt.set (p - 12) v).length := by
        simp [hlp]
      rw [hm, List.drop_left, List.take_left] at heq
      have htag : toyTag key iv (pt.set (p - 12) v) ≠ toyTag key iv pt :=
        toyTag_set_pt hq hvpt
      exact htag (by injection heq with h1 _; exact h1.symm)
    · -- tamper inside the 16-byte tag block
      have hsetB : (toyEnc key iv pt).set (p - 12) v =
          pt ++ (toyTag key iv pt :: List.replicate 15 0).set (p - 12 - pt.length) v := by
        rw [toyEnc, set_append_right hq]
      have hq16 : p - 12 - pt.length < 16 := by omega
      have hvT : v ≠ (toyTag key iv pt :: List.replicate 15 0).getD (p - 12 - pt.length) 0 :=
        fun he => hvB (by
          simp only [toyEnc]
          rw [getD_append_right (show pt.length ≤ p - 12 by omega) 0]
          exact he)
      unfold toyDec
      rw [if_neg]
      intro hcond
      obtain ⟨h16, heq⟩ := hcond
      rw [hsetB] at heq
      have hm : (pt ++ (toyTag key iv pt :: List.replicate 15 0).set
          (p - 12 - pt.length) v).length - 16 = pt.length := by
        simp
      rw [hm, List.drop_left, List.take_left] at heq
      exact set_ne_of_getD_ne (by simp; omega) hvT heq

theorem take_append_self {a : List Nat} (b : List Nat) (h : a.length = 12) :
    (a ++ b).take 12 = a := by
  rw [← h]
  exact List.take_left a b

theorem drop_append_self {a : List Nat} (b : List Nat) (h : a.length = 12) :
    (a ++ b).drop 12 = b := by
  rw [← h]
  exact List.drop_left a b

/-- The canonical path: decrypting the chunks of an untampered stream of
a file in the single-AEAD-call regime recovers the file via the direct
decryption approach. -/
theorem decrypt_encrypt_identity (key iv pt : List Nat) (s : Nat)
    (hiv : iv.length = 12) (hs : 12 ≤ s) (hlen : pt.length ≤ 500 * 1024 * 1024) :
    decryptChunkedFile toyDec key
      (prepareFileChunks (encryptFile toyEnc key iv pt) s) = some pt := by
  have hxe : encryptFile toyEnc key iv pt = iv ++ toyEnc key iv pt := encryptFile_single hlen
  set x := encryptFile toyEnc key iv pt with hxdef
  have hxlen : x.length = 28 + pt.length := by
    rw [hxe, List.length_append, hiv, toyEnc_length]
    omega
  have hchunks : prepareFileChunks x s = x.take s :: slicesOf (x.drop s) s := by
    unfold prepareFileChunks
    exact slicesOf_cons (by omega) (by omega)
  rw [hchunks]
  have hc0len : (x.take s).length = min s x.length := List.length_take s x
  have hn : ¬ ((x.take s).length < IV_LENGTH) := by
    simp only [IV_LENGTH]
    omega
  have htk : (x.take s).take IV_LENGTH = iv := by
    simp only [IV_LENGTH]
    rw [take_of_take_chunk hs, hxe]
    exact take_append_self _ hiv
  have hfin : (x.take s).drop IV_LENGTH ++ (slicesOf (x.drop s) s).flatten =
      toyEnc key iv pt := by
    simp only [IV_LENGTH]
    rw [reassemble_drop hs (by omega), hxe]
    exact drop_append_self _ hiv
  simp only [decryptChunkedFile]
  rw [if_neg hn, htk, hfin, toyDec_toyEnc, firstSome_some]

/-- Any single-bit flip anywhere in the ciphertext stream makes every
decryption path of `decryptChunkedFile` other than the fallback
heuristics fail, and no path (fallbacks included) can return the
original plaintext: whatever a fallback returns is strictly shorter
than the original. -/
theorem tamper_never_original (key iv pt : List Nat) (s p j : Nat)
    (hiv : iv.length = 12) (hs : 0 < s) (hlen : pt.length ≤ 500 * 1024 * 1024)
    (hp : p < (encryptFile toyEnc key iv pt).length) :
    decryptChunkedFile toyDec key
      (prepareFileChunks (tamperBit (encryptFile toyEnc key iv pt) p j) s) ≠ some pt := by
  have hxe : encryptFile toyEnc key iv pt = iv ++ toyEnc key iv pt := encryptFile_single hlen
  set x := encryptFile toyEnc key iv pt with hxdef
  have hxlen : x.length = 28 + pt.length := by
    rw [hxe, List.length_append, hiv, toyEnc_length]
    omega
  set v := x.getD p 0 ^^^ 2 ^ j with hvdef
  have hv : v ≠ x.getD p 0 := xor_pow_ne _ j
  set y := x.set p v with hydef
  have hty : tamperBit x p j = y := rfl
  have hylen : y.length = 28 + pt.length := by
    rw [hydef, List.length_set]
    exact hxlen
  have hA1 : toyDec key (y.take 12) (y.drop 12) = none := by
    rw [hydef, hxe]
    apply toyDec_tamper hiv (show p < 12 + (pt.length + 16) by omega)
    rw [← hxe]
    exact hv
  rw [hty]
  have hchunks : prepareFileChunks y s = y.take s :: slicesOf (y.drop s) s := by
    unfold prepareFileChunks
    exact slicesOf_cons hs (by omega)
  rw [hchunks]
  rcases Nat.lt_or_ge s 12 with hs12 | hs12
  · -- chunk size below the IV length: the first-chunk length check throws
    have hshort : (y.take s).length < IV_LENGTH := by
      simp only [IV_LENGTH, List.length_take]
      omega
    simp only [decryptChunkedFile]
    rw [if_pos hshort]
    exact fun h => Option.noConfusion h
  · -- chunk size at least the IV length
    have hn : ¬ ((y.take s).length < IV_LENGTH) := by
      simp only [IV_LENGTH, List.length_take]
      omega
    have htk : (y.take s).take IV_LENGTH = y.take 12 := by
      simp only [IV_LENGTH]
      exact take_of_take_chunk hs12
    have hfin : (y.take s).drop IV_LENGTH ++ (slicesOf (y.drop s) s).flatten = y.drop 12 := by
      simp only [IV_LENGTH]
      exact reassemble_drop hs12 (by omega)
    intro hcontra
    simp only [decryptChunkedFile] at hcontra
    rw [if_neg hn, htk, hfin, hA1, firstSome_none] at hcontra
    have hdlen : (y.drop 12).length = 16 + pt.length := by
      rw [List.length_drop]
      omega
    rcases firstSome_eq_some hcontra with h2 | ⟨_, hcontra2⟩
    · -- Approach 2: trim 16 bytes from the end
      split at h2
      · have hs2 := toyDec_some h2
        rw [List.length_take, List.length_drop] at hs2
        omega
      · exact Option.noConfusion h2
    · rcases firstSome_eq_some hcontra2 with h3 | ⟨_, hcontra3⟩
      · -- Approach 3: first chunk only, or first two chunks
        split at h3
        · -- first chunk only
          next hpos =>
          simp only [IV_LENGTH] at h3
          rw [List.drop_take] at h3
          rcases Nat.lt_or_ge s y.length with hsy | hsy
          · have hs3 := toyDec_some h3
            rw [List.length_take, List.length_drop] at hs3
            omega
          · have hall : (y.drop 12).length ≤ s - 12 := by
              rw [List.length_drop]
              omega
            rw [List.take_of_length_le hall] at h3
            rw [hA1] at h3
            exact Option.noConfusion h3
        · -- first two chunks (only reachable when chunk 0 is exactly the IV)
          next hzero =>
          simp only [IV_LENGTH, List.length_drop, List.length_take] at hzero
          have hs12e : s = 12 := by omega
          subst hs12e
          have hrest : slicesOf (y.drop 12) 12 =
              (y.drop 12).take 12 :: slicesOf ((y.drop 12).drop 12) 12 :=
            slicesOf_cons (by omega) (by omega)
          rw [hrest] at h3
          simp only [IV_LENGTH] at h3
          have hnil : (y.take 12).drop 12 = [] := by
            apply List.eq_nil_of_length_eq_zero
            rw [List.length_drop, List.length_take]
            omega
          rw [hnil, List.nil_append] at h3
          have hc1 : ((y.drop 12).take 12).length < 16 := by
            rw [List.length_take]
            omega
          rw [toyDec_short hc1] at h3
          exact Option.noConfusion h3
      · -- Approach 4: raw concatenation, identical to the direct attempt
        have hflat : (y.take s :: slicesOf (y.drop s) s).flatten = y := by
          rw [List.flatten_cons, flatten_slicesOf hs, List.take_append_drop]
        rw [hflat] at hcontra3
        simp only [IV_LENGTH] at hcontra3
        rw [hA1] at hcontra3
        exact Option.noConfusion hcontra3

/-! ## Upload Transfer State Machine (useUploadManager.ts uploadFile)

The chunk upload loop of `uploadFile` (lines 276-462), in its
single-worker interleaving (the cooperative workers serialise at each
`await`; the shared `chunkIndex` cursor then visits each chunk in
order, and `chunkIndex--` after a retryable failure re-visits the same
chunk).  `ok i a` tells whether the network transfer of chunk `i`
succeeds on its attempt with the `attempts` counter at `a`.
`MAX_RETRIES = 3` is hardcoded in the source. -/

inductive ChunkStatus where
  | pending
  | uploading
  | completed
  | error
deriving DecidableEq

structure ChunkStateM where
  uploaded : Bool
  status : ChunkStatus
  attempts : Nat
deriving DecidableEq

/-- `uploadFile` initialises a fresh `ChunkState` for every chunk
(source lines 277-288): `uploaded: false, status: 'pending',
attempts: 0` — regardless of any previously persisted records. -/
def initChunkStates (n : Nat) : List ChunkStateM :=
  List.replicate n ⟨false, ChunkStatus.pending, 0⟩

/-- One chunk's transfer-with-retry (source lines 340-438): attempt the
upload; on success the chunk is `completed` (attempts unchanged); on
failure `attempts` is incremented and, while still under
`MAX_RETRIES = 3`, the chunk is reset to `pending` and retried
(`chunkIndex--`).  Returns (succeeded, number of transfer calls, final
attempts).  The fuel is `3 - attempts`. -/
def runChunkAux (ok : Nat → Bool) : Nat → Nat → Bool × Nat × Nat
  | 0, a => (false, 0, a)
  | fuel + 1, a =>
    if ok a then (true, 1, a)
    else if 3 ≤ a + 1 then (false, 1, a + 1)
    else
      match runChunkAux ok fuel (a + 1) with
      | (s, t, a2) => (s, t + 1, a2)

def runChunk (ok : Nat → Bool) : Bool × Nat × Nat := runChunkAux ok 3 0

inductive UploadRun where
  | aborted (transfers : Nat)
  | finished (states : List ChunkStateM) (transfers : Nat)
deriving DecidableEq

/-- Attach one finished chunk state in front of a loop result. -/
def pushState (st : ChunkStateM) : UploadRun → UploadRun
  | UploadRun.aborted t => UploadRun.aborted t
  | UploadRun.finished sts t => UploadRun.finished (st :: sts) t

/-- The worker loop over the chunk list: skip chunks already
`uploaded`; otherwise run the transfer with retries; on permanent
failure increment `failedChunks` and abort the whole upload when
`failedChunks > Math.min(5, Math.floor(chunks.length * 0.1))`
(source line 426; `Math.floor(n * 0.1)` agrees with `n / 10` on natural
inputs), else record the chunk as `error` and continue. -/
def addTransfers (tc : Nat) : UploadRun → UploadRun
  | UploadRun.aborted t => UploadRun.aborted (t + tc)
  | UploadRun.finished sts t => UploadRun.finished sts (t + tc)

def uploadLoop (ok : Nat → Nat → Bool) (threshold : Nat) :
    List (Nat × ChunkStateM) → Nat → UploadRun
  | [], _ => UploadRun.finished [] 0
  | (i, st) :: rest, failed =>
    if st.uploaded then pushState st (uploadLoop ok threshold rest failed)
    else if (runChunk (ok i)).1 then
      addTransfers (runChunk (ok i)).2.1
        (pushState ⟨true, ChunkStatus.completed, (runChunk (ok i)).2.2⟩
          (uploadLoop ok threshold rest failed))
    else if threshold < failed + 1 then UploadRun.aborted (runChunk (ok i)).2.1
    else
      addTransfers (runChunk (ok i)).2.1
        (pushState ⟨false, ChunkStatus.error, (runChunk (ok i)).2.2⟩
          (uploadLoop ok threshold rest (failed + 1)))

inductive UploadOutcome where
  | success (transfers : Nat)
  | tooManyFailures (transfers : Nat)
  | incomplete (transfers : Nat)
deriving DecidableEq

/-- `uploadFile`'s chunk-upload phase: fresh chunk states, the worker
loop, then the final completeness check (source lines 457-462): if not
every chunk has status `completed` the upload throws
`Upload incomplete: N chunks failed to upload.` even when the
mid-upload failure threshold was never exceeded. -/
def uploadFile (n : Nat) (ok : Nat → Nat → Bool) : UploadOutcome :=
  match uploadLoop ok (min 5 (n / 10)) ((List.range n).zip (initChunkStates n)) 0 with
  | UploadRun.aborted t => UploadOutcome.tooManyFailures t
  | UploadRun.finished sts t =>
    if sts.all fun st => st.status = ChunkStatus.completed then UploadOutcome.success t
    else UploadOutcome.incomplete t

/-- `handleResumeUpload` (source lines 612-680): re-imports the key,
rebuilds the file list from metadata, and calls `uploadFile` for each
file.  The persisted `ChunkState` records — passed here as
`persistedChunks` — are never read: `uploadFile` re-initialises every
chunk state from scratch, so they do not influence the transfer count. -/
def handleResumeUpload (persistedChunks : List ChunkStateM) (n : Nat)
    (ok : Nat → Nat → Bool) : UploadOutcome :=
  uploadFile n ok

/-- A chunk permanently fails when all three transfer attempts fail. -/
def permFail (ok : Nat → Nat → Bool) (i : Nat) : Bool :=
  !(ok i 0 || ok i 1 || ok i 2)

def permFailCount (n : Nat) (ok : Nat → Nat → Bool) : Nat :=
  ((List.range n).filter (permFail ok)).length

theorem runChunk_succ_iff {g : Nat → Bool} :
    (runChunk g).1 = true ↔ (g 0 = true ∨ g 1 = true ∨ g 2 = true) := by
  rcases h0 : g 0 <;> rcases h1 : g 1 <;> rcases h2 : g 2 <;>
    simp [runChunk, runChunkAux, h0, h1, h2]

theorem runChunk_fst (ok : Nat → Nat → Bool) (i : Nat) :
    (runChunk (ok i)).1 = !(permFail ok i) := by
  rcases h0 : ok i 0 <;> rcases h1 : ok i 1 <;> rcases h2 : ok i 2 <;>
    simp [runChunk, runChunkAux, permFail, h0, h1, h2]

def freshPair (i : Nat) : Nat × ChunkStateM := (i, ⟨false, ChunkStatus.pending, 0⟩)

theorem uploadLoop_fresh_cons (ok : Nat → Nat → Bool) (θ i : Nat)
    (rest : List (Nat × ChunkStateM)) (failed : Nat) :
    uploadLoop ok θ (freshPair i :: rest) failed =
      if (runChunk (ok i)).1 then
        addTransfers (runChunk (ok i)).2.1
          (pushState ⟨true, ChunkStatus.completed, (runChunk (ok i)).2.2⟩
            (uploadLoop ok θ rest failed))
      else if θ < failed + 1 then UploadRun.aborted (runChunk (ok i)).2.1
      else
        addTransfers (runChunk (ok i)).2.1
          (pushState ⟨false, ChunkStatus.error, (runChunk (ok i)).2.2⟩
            (uploadLoop ok θ rest (failed + 1))) := rfl

theorem uploadLoop_aborted_iff (ok : Nat → Nat → Bool) (θ : Nat) :
    ∀ (idxs : List Nat) (failed : Nat), failed ≤ θ →
      ((∃ t, uploadLoop ok θ (idxs.map freshPair) failed = UploadRun.aborted t) ↔
        θ < failed + (idxs.filter (permFail ok)).length) := by
  intro idxs
  induction idxs with
  | nil =>
    intro failed hf
    simp only [List.map_nil, uploadLoop, List.filter_nil, List.length_nil]
    constructor
    · rintro ⟨t, ht⟩
      exact absurd ht (by simp)
    · intro h
      omega
  | cons i rest ih =>
    intro failed hf
    rw [List.map_cons, uploadLoop_fresh_cons, runChunk_fst ok i]
    rcases hpf : permFail ok i with _ | _
    · -- chunk i succeeds eventually
      rw [if_pos (show (!false) = true from rfl)]
      have hcnt : (i :: rest).filter (permFail ok) = rest.filter (permFail ok) := by
        simp [List.filter_cons, hpf]
      rw [hcnt]
      cases hrec : uploadLoop ok θ (rest.map freshPair) failed with
      | aborted t2 =>
        simp only [pushState, addTransfers]
        constructor
        · intro _
          exact (ih failed hf).mp ⟨t2, hrec⟩
        · intro _
          exact ⟨t2 + (runChunk (ok i)).2.1, rfl⟩
      | finished sts t2 =>
        simp only [pushState, addTransfers]
        constructor
        · rintro ⟨t, ht⟩
          exact absurd ht (by simp)
        · intro h
          rcases (ih failed hf).mpr h with ⟨t, ht⟩
          rw [ht] at hrec
          exact absurd hrec (by simp)
    · -- chunk i permanently fails
      rw [if_neg (show ¬ ((!true) = true) by decide)]
      have hcnt : ((i :: rest).filter (permFail ok)).length =
          1 + (rest.filter (permFail ok)).length := by
        simp [List.filter_cons, hpf]
        omega
      rw [hcnt]
      rcases Nat.lt_or_ge θ (failed + 1) with hθ | hθ
      · rw [if_pos hθ]
        constructor
        · intro _
          omega
        · intro _
          exact ⟨(runChunk (ok i)).2.1, rfl⟩
      · rw [if_neg (by omega)]
        cases hrec : uploadLoop ok θ (rest.map freshPair) (failed + 1) with
        | aborted t2 =>
          simp only [pushState, addTransfers]
          constructor
          · intro _
            have := (ih (failed + 1) hθ).mp ⟨t2, hrec⟩
            omega
          · intro _
            exact ⟨t2 + (runChunk (ok i)).2.1, rfl⟩
        | finished sts t2 =>
          simp only [pushState, addTransfers]
          constructor
          · rintro ⟨t, ht⟩
            exact absurd ht (by simp)
          · intro h
            rcases (ih (failed + 1) hθ).mpr (by omega) with ⟨t, ht⟩
            rw [ht] at hrec
            exact absurd hrec (by simp)

theorem uploadLoop_finished_all (ok : Nat → Nat → Bool) (θ : Nat) :
    ∀ (idxs : List Nat) (failed : Nat) (sts : List ChunkStateM) (t : Nat),
      uploadLoop ok θ (idxs.map freshPair) failed = UploadRun.finished sts t →
      ((sts.all fun st => st.status = ChunkStatus.completed) = true ↔
        (idxs.filter (permFail ok)).length = 0) := by
  intro idxs
  induction idxs with
  | nil =>
    intro failed sts t h
    simp only [List.map_nil, uploadLoop] at h
    injection h with h1 _
    subst h1
    simp
  | cons i rest ih =>
    intro failed sts t h
    rw [List.map_cons, uploadLoop_fresh_cons, runChunk_fst ok i] at h
    rcases hpf : permFail ok i with _ | _
    · rw [hpf, if_pos (show (!false) = true from rfl)] at h
      have hcnt : (i :: rest).filter (permFail ok) = rest.filter (permFail ok) := by
        simp [List.filter_cons, hpf]
      rw [hcnt]
      cases hrec : uploadLoop ok θ (rest.map freshPair) failed with
      | aborted t2 =>
        rw [hrec] at h
        simp only [pushState, addTransfers] at h
        exact absurd h (by simp)
      | finished sts2 t2 =>
        rw [hrec] at h
        simp only [pushState, addTransfers] at h
        injection h with h1 _
        subst h1
        rw [List.all_cons]
        have hrest := ih failed sts2 t2 hrec
        constructor
        · intro hall
          rw [Bool.and_eq_true] at hall
          exact hrest.mp hall.2
        · intro h0
          rw [Bool.and_eq_true]
          exact ⟨by simp, hrest.mpr h0⟩
    · rw [hpf, if_neg (show ¬ ((!true) = true) by decide)] at h
      have hcnt : ((i :: rest).filter (permFail ok)).length =
          1 + (rest.filter (permFail ok)).length := by
        simp [List.filter_cons, hpf]
        omega
      rw [hcnt]
      rcases Nat.lt_or_ge θ (failed + 1) with hθ | hθ
      · rw [if_pos hθ] at h
        exact absurd h (by simp)
      · rw [if_neg (by omega)] at h
        cases hrec : uploadLoop ok θ (rest.map freshPair) (failed + 1) with
        | aborted t2 =>
          rw [hrec] at h
          simp only [pushState, addTransfers] at h
          exact absurd h (by simp)
        | finished sts2 t2 =>
          rw [hrec] at h
          simp only [pushState, addTransfers] at h
          injection h with h1 _
          subst h1
          rw [List.all_cons]
          simp

theorem zip_range_fresh :
    ∀ (l : List Nat),
      l.zip (List.replicate l.length ⟨false, ChunkStatus.pending, 0⟩) = l.map freshPair := by
  intro l
  induction l with
  | nil => rfl
  | cons x xs ih =>
    simp only [List.length_cons, List.replicate_succ, List.zip_cons_cons, List.map_cons]
    rw [ih]
    rfl

theorem uploadFile_aborted {n : Nat} {ok : Nat → Nat → Bool} {t : Nat}
    (h : uploadLoop ok (min 5 (n / 10)) ((List.range n).zip (initChunkStates n)) 0 =
      UploadRun.aborted t) :
    uploadFile n ok = UploadOutcome.tooManyFailures t := by
  unfold uploadFile
  rw [h]

theorem uploadFile_finished {n : Nat} {ok : Nat → Nat → Bool}
    {sts : List ChunkStateM} {t : Nat}
    (h : uploadLoop ok (min 5 (n / 10)) ((List.range n).zip (initChunkStates n)) 0 =
      UploadRun.finished sts t) :
    uploadFile n ok =
      if sts.all fun st => st.status = ChunkStatus.completed then UploadOutcome.success t
      else UploadOutcome.incomplete t := by
  unfold uploadFile
  rw [h]

theorem uploadFile_spec (n : Nat) (ok : Nat → Nat → Bool) :
    ((∃ t, uploadFile n ok = UploadOutcome.tooManyFailures t) ↔
      min 5 (n / 10) < permFailCount n ok) ∧
    ((∃ t, uploadFile n ok = UploadOutcome.success t) ↔ permFailCount n ok = 0) := by
  have hzip : (List.range n).zip (initChunkStates n) = (List.range n).map freshPair := by
    unfold initChunkStates
    have h := zip_range_fresh (List.range n)
    rw [List.length_range] at h
    exact h
  have habort := uploadLoop_aborted_iff ok (min 5 (n / 10)) (List.range n) 0 (by omega)
  cases hrec : uploadLoop ok (min 5 (n / 10)) ((List.range n).zip (initChunkStates n)) 0 with
  | aborted t2 =>
    have hm := uploadFile_aborted hrec
    rw [hzip] at hrec
    have hcnt := habort.mp ⟨t2, hrec⟩
    constructor
    · constructor
      · intro _
        unfold permFailCount
        omega
      · intro _
        exact ⟨t2, hm⟩
    · constructor
      · rintro ⟨t, ht⟩
        rw [hm] at ht
        exact absurd ht (by simp)
      · intro h
        unfold permFailCount at h
        omega
  | finished sts t2 =>
    have hm := uploadFile_finished hrec
    rw [hzip] at hrec
    have hall := uploadLoop_finished_all ok (min 5 (n / 10)) (List.range n) 0 sts t2 hrec
    have hnab : ¬ (min 5 (n / 10) <
        0 + ((List.range n).filter (permFail ok)).length) := by
      intro hlt
      rcases habort.mpr hlt with ⟨t, ht⟩
      rw [ht] at hrec
      exact absurd hrec (by simp)
    constructor
    · constructor
      · rintro ⟨t, ht⟩
        rw [hm] at ht
        split at ht <;> exact absurd ht (by simp)
      · intro h
        unfold permFailCount at h
        omega
    · constructor
      · rintro ⟨t, ht⟩
        rw [hm] at ht
        split at ht
        · next hcond =>
          unfold permFailCount
          exact hall.mp hcond
        · exact absurd ht (by simp)
      · intro h
        refine ⟨t2, ?_⟩
        rw [hm, if_pos (hall.mpr (by unfold permFailCount at h; exact h))]

/-! ## Download loop (useDownloadManager.ts processDownload)

The sequential chunk-download loop of `processDownload` (lines
973-1088) and the post-loop handoff to decryption (lines 1091-1114).
The network is an oracle `Nat → ChunkResp`.  The loop runs while
`chunkIndex < 1000`; the 10-minute wall-clock timeout is a real-time
feature outside the model.  `downloadLoop` returns `none` for a thrown
error and `some acc` when the loop ends and control reaches the
decryption phase; chunks are stored together with the index they were
downloaded at (the source buffers only the bytes). -/

inductive ChunkResp where
  | ok (data : List Nat)
  | status (code : Nat)
  | timeout
  | netError
deriving DecidableEq

def downloadLoop (oracle : Nat → ChunkResp) :
    Nat → Nat → List (Nat × List Nat) → Option (List (Nat × List Nat))
  | 0, _, acc => some acc
  | fuel + 1, i, acc =>
    match oracle i with
    | ChunkResp.ok data =>
      if data.length = 0 then downloadLoop oracle fuel (i + 1) acc
      else downloadLoop oracle fuel (i + 1) (acc ++ [(i, data)])
    | ChunkResp.status c =>
      if c = 404 then some acc
      else if 0 < i ∧ (c = 500 ∨ c = 404) then some acc
      else downloadLoop oracle fuel (i + 1) acc
    | ChunkResp.timeout => if 0 < acc.length then some acc else none
    | ChunkResp.netError => if 0 < acc.length then some acc else none

inductive DownloadOutcome where
  | failed
  | decryptInvoked (chunks : List (Nat × List Nat))
deriving DecidableEq

/-- `processDownload`: run the download loop from chunk 0; afterwards
throw `No data found or download failed` when nothing was downloaded,
otherwise hand `allChunks` to `decryptChunkedFile` exactly once. -/
def processDownload (oracle : Nat → ChunkResp) : DownloadOutcome :=
  match downloadLoop oracle 1000 0 [] with
  | none => DownloadOutcome.failed
  | some chunks =>
    if chunks.length = 0 then DownloadOutcome.failed
    else DownloadOutcome.decryptInvoked chunks

theorem downloadLoop_invariant (oracle : Nat → ChunkResp) :
    ∀ (fuel i : Nat) (acc : List (Nat × List Nat)) (chunks : List (Nat × List Nat)),
      (∀ x ∈ acc, x.1 < i) → acc.Pairwise (fun a b => a.1 < b.1) →
      downloadLoop oracle fuel i acc = some chunks →
      chunks.Pairwise (fun a b => a.1 < b.1) := by
  intro fuel
  induction fuel with
  | zero =>
    intro i acc chunks _ hpw h
    injection h with h1
    subst h1
    exact hpw
  | succ fuel ih =>
    intro i acc chunks hlt hpw h
    simp only [downloadLoop] at h
    rcases horacle : oracle i with data | c | _ | _ <;> rw [horacle] at h <;>
      simp only [] at h
    · split at h
      · exact ih (i + 1) acc chunks (fun x hx => by have := hlt x hx; omega) hpw h
      · refine ih (i + 1) (acc ++ [(i, data)]) chunks ?_ ?_ h
        · intro x hx
          rcases List.mem_append.mp hx with hx1 | hx2
          · have := hlt x hx1
            omega
          · rw [List.mem_singleton] at hx2
            subst hx2
            simp
        · rw [List.pairwise_append]
          refine ⟨hpw, List.pairwise_singleton _ _, ?_⟩
          intro a ha b hb
          rw [List.mem_singleton] at hb
          subst hb
          exact hlt a ha
    · split at h
      · injection h with h1
        subst h1
        exact hpw
      · split at h
        · injection h with h1
          subst h1
          exact hpw
        · exact ih (i + 1) acc chunks (fun x hx => by have := hlt x hx; omega) hpw h
    · split at h
      · injection h with h1
        subst h1
        exact hpw
      · exact absurd h (by simp)
    · split at h
      · injection h with h1
        subst h1
        exact hpw
      · exact absurd h (by simp)

/-- What the download loop guarantees about any chunk set handed to the
decryption engine: it is nonempty and strictly ascending in chunk
index.  Completeness of indices 0..N-1 is not among the guarantees. -/
theorem processDownload_sorted (oracle : Nat → ChunkResp)
    (chunks : List (Nat × List Nat))
    (h : processDownload oracle = DownloadOutcome.decryptInvoked chunks) :
    chunks ≠ [] ∧ chunks.Pairwise (fun a b => a.1 < b.1) := by
  unfold processDownload at h
  cases hloop : downloadLoop oracle 1000 0 [] with
  | none =>
    rw [hloop] at h
    exact absurd h (by simp)
  | some acc =>
    rw [hloop] at h
    simp only [] at h
    split at h
    · exact absurd h (by simp)
    · next hne =>
      injection h with h1
      subst h1
      refine ⟨?_, downloadLoop_invariant oracle 1000 0 [] _ (by simp) (by simp) hloop⟩
      intro hnil
      rw [hnil] at hne
      simp at hne

/-! ## Local Persistent Store (uploadStore.ts UploadStore.saveUploadState)

`saveUploadState` (source lines 206-233): read the existing record for
`batchId` (or build the default record), spread the partial update over
it, and always stamp `updatedAt: Date.now()` last.  A partial update is
a record of `Option` fields; `none` is an absent property. -/

inductive UploadStatus where
  | pending
  | uploading
  | paused
  | completed
  | error
deriving DecidableEq

structure FileMetadataR where
  id : String
  name : String
  mimeType : String
  size : Nat
deriving DecidableEq

structure UploadStateR where
  batchId : String
  fileIds : List String
  encryptionKey : String
  totalSize : Nat
  uploadedSize : Nat
  status : UploadStatus
  createdAt : Nat
  updatedAt : Nat
  metadata : List FileMetadataR
deriving DecidableEq

structure UploadStateUpdate where
  batchId : Option String
  fileIds : Option (List String)
  encryptionKey : Option String
  totalSize : Option Nat
  uploadedSize : Option Nat
  status : Option UploadStatus
  createdAt : Option Nat
  updatedAt : Option Nat
  metadata : Option (List FileMetadataR)
deriving DecidableEq

/-- The default record built when no record exists for the batch
(source lines 212-222). -/
def defaultUploadState (batchId : String) (now : Nat) : UploadStateR :=
  ⟨batchId, [], "", 0, 0, UploadStatus.pending, now, now, []⟩

/-- The JS object spread `{ ...existingState, ...state }`: every
property present on the partial update overrides the base record. -/
def spreadUpdate (base : UploadStateR) (u : UploadStateUpdate) : UploadStateR :=
  ⟨u.batchId.getD base.batchId, u.fileIds.getD base.fileIds,
    u.encryptionKey.getD base.encryptionKey, u.totalSize.getD base.totalSize,
    u.uploadedSize.getD base.uploadedSize, u.status.getD base.status,
    u.createdAt.getD base.createdAt, u.updatedAt.getD base.updatedAt,
    u.metadata.getD base.metadata⟩

/-- `saveUploadState`: `{ ...existingState, ...state, updatedAt: Date.now() }`
stored under `batchId`; the trailing `updatedAt` wins over both. -/
def saveUploadState (existing : Option UploadStateR) (batchId : String)
    (state : UploadStateUpdate) (now : Nat) : UploadStateR :=
  let existingState := existing.getD (defaultUploadState batchId now)
  { spreadUpdate existingState state with updatedAt := now }

/-! ## Claim theorems -/

theorem encryptStreaming_eq_map_flatten
    (enc : List Nat → List Nat → List Nat → List Nat) (key iv file : List Nat)
    (h : 0 < (file.length + SEGMENT_SIZE - 1) / SEGMENT_SIZE) :
    encryptStreamingLargeFile enc key iv file =
      iv ++ ((slicesOf file SEGMENT_SIZE).map (enc key iv)).flatten := by
  have hseg : 0 < SEGMENT_SIZE := by decide
  have hlen0 : 0 < file.length := by
    rcases Nat.eq_zero_or_pos file.length with h0 | h0
    · rw [h0] at h
      have : (0 + SEGMENT_SIZE - 1) / SEGMENT_SIZE = 0 := Nat.div_eq_of_lt (by omega)
      omega
    · exact h0
  have htail : (slicesOf (file.drop SEGMENT_SIZE) SEGMENT_SIZE).map (enc key iv) =
      (List.range ((file.length + SEGMENT_SIZE - 1) / SEGMENT_SIZE - 1)).map
        (fun j => enc key iv ((file.drop ((j + 1) * SEGMENT_SIZE)).take SEGMENT_SIZE)) := by
    unfold slicesOf
    rw [List.map_map, List.length_drop]
    have ht2 : (file.length - SEGMENT_SIZE + SEGMENT_SIZE - 1) / SEGMENT_SIZE =
        (file.length + SEGMENT_SIZE - 1) / SEGMENT_SIZE - 1 := by
      have := ceil_div_succ hseg hlen0
      omega
    rw [ht2]
    apply List.map_congr_left
    intro j _
    simp only [Function.comp_apply]
    have harg : SEGMENT_SIZE + j * SEGMENT_SIZE = (j + 1) * SEGMENT_SIZE := by
      rw [Nat.succ_mul, Nat.add_comm]
    rw [List.drop_drop, harg]
  have hcons : slicesOf file SEGMENT_SIZE =
      file.take SEGMENT_SIZE :: slicesOf (file.drop SEGMENT_SIZE) SEGMENT_SIZE :=
    slicesOf_cons hseg hlen0
  unfold encryptStreamingLargeFile
  rw [hcons, List.map_cons, List.flatten_cons, htail, List.append_assoc]

/-- C1 (code_bug): the spec requires exactly one AEAD encrypt call over
the entire file content, but for a file one byte over 500 MB
`encryptFile` delegates to `encryptStreamingLargeFile`, which performs
six independent AEAD encrypt calls — one per 100 MB segment, all with
the same IV — and concatenates the independently-authenticated
ciphertexts. -/
theorem claim1_streaming_chunked_encryption :
    encryptAEADCalls (500 * 1024 * 1024 + 1) = 6 ∧
    encryptFile toyEnc [] (List.replicate 12 0) (List.replicate (500 * 1024 * 1024 + 1) 0) =
      List.replicate 12 0 ++
        ((slicesOf (List.replicate (500 * 1024 * 1024 + 1) 0) SEGMENT_SIZE).map
          (toyEnc [] (List.replicate 12 0))).flatten ∧
    (slicesOf (List.replicate (500 * 1024 * 1024 + 1) 0) SEGMENT_SIZE).length = 6 := by
  refine ⟨by decide, ?_, ?_⟩
  · have h25 : 25 * 1024 * 1024 <
        (List.replicate (500 * 1024 * 1024 + 1) (0 : Nat)).length := by
      rw [List.length_replicate]
      decide
    have h500 : 500 * 1024 * 1024 <
        (List.replicate (500 * 1024 * 1024 + 1) (0 : Nat)).length := by
      rw [List.length_replicate]
      decide
    unfold encryptFile encryptLargeFile
    rw [if_pos h25, if_pos h500]
    apply encryptStreaming_eq_map_flatten
    rw [List.length_replicate]
    decide
  · rw [slicesOf_length, List.length_replicate]
    decide

/-- C2 (counterexample): with transport chunk size 1 — a valid chunk
size for the splitter — the sorted, complete chunk sequence of an
encrypted 1-byte file fails to decrypt: the first transport chunk is
shorter than the 12-byte IV and `decryptChunkedFile` throws. -/
theorem claim2_counterexample :
    decryptChunkedFile toyDec []
      (prepareFileChunks (encryptFile toyEnc [] (List.replicate 12 0) [1]) 1) = none ∧
    (none : Option (List Nat)) ≠ some [1] := by
  constructor
  · decide
  · decide

/-- C2 (amended): the encrypt/decrypt identity holds whenever the
transport chunk size is at least the 12-byte IV length and the file is
in the single-AEAD-call regime (at most 500 MB): decryption succeeds on
the sorted, complete chunk sequence and returns the file byte for
byte. -/
theorem claim2_identity (key iv pt : List Nat) (s : Nat)
    (hiv : iv.length = 12) (hs : 12 ≤ s) (hlen : pt.length ≤ 500 * 1024 * 1024) :
    decryptChunkedFile toyDec key
      (prepareFileChunks (encryptFile toyEnc key iv pt) s) = some pt :=
  decrypt_encrypt_identity key iv pt s hiv hs hlen

theorem claim2_witness :
    decryptChunkedFile toyDec []
      (prepareFileChunks (encryptFile toyEnc [] (List.replicate 12 0) [5]) 12) = some [5] :=
  claim2_identity [] (List.replicate 12 0) [5] 12 (by decide) (by decide) (by decide)

/-- C3 (counterexample): a single bit flip in the authentication-tag
region of the ciphertext stream of a crafted file does NOT make
`decryptChunkedFile` fail: the direct decryption fails, but the
"remove auth tag from end" fallback (Approach 2) then succeeds and
returns the plaintext `[1]`, different from the original 17-byte file.
(Real AES-GCM admits the same construction: choose the last 16
plaintext bytes so that the truncated ciphertext is itself validly
tagged.) -/
theorem claim3_counterexample :
    decryptChunkedFile toyDec []
      (prepareFileChunks
        (tamperBit
          (encryptFile toyEnc [] (List.replicate 12 0) (1 :: 13 :: List.replicate 15 0))
          29 0)
        (2 * 1024 * 1024)) = some [1] ∧
    ([1] : List Nat) ≠ 1 :: 13 :: List.replicate 15 0 := by
  constructor
  · decide
  · decide

/-- C3 (amended): a single bit flip anywhere in the ciphertext stream
(IV, body or tag, any transport chunk size) makes the direct
single-shot decryption fail, and `decryptChunkedFile` never returns the
original plaintext — it either throws `DecryptionError` or returns a
fallback-path output that is strictly shorter than the original; the
as-stated guarantee that it always fails is violated only by the
explicit fallback heuristics. -/
theorem claim3_tamper (key iv pt : List Nat) (s p j : Nat)
    (hiv : iv.length = 12) (hs : 0 < s) (hlen : pt.length ≤ 500 * 1024 * 1024)
    (hp : p < (encryptFile toyEnc key iv pt).length) :
    decryptChunkedFile toyDec key
      (prepareFileChunks (tamperBit (encryptFile toyEnc key iv pt) p j) s) ≠ some pt :=
  tamper_never_original key iv pt s p j hiv hs hlen hp

theorem claim3_witness :
    decryptChunkedFile toyDec []
      (prepareFileChunks (tamperBit (encryptFile toyEnc [] (List.replicate 12 0) [7]) 28 0)
        12) ≠ some [7] :=
  claim3_tamper [] (List.replicate 12 0) [7] 12 28 0 (by decide) (by decide) (by decide)
    (by decide)

/-- C4 (counterexample): a non-404/500 server error on chunk 0 (here
HTTP 503) makes the download loop skip index 0 and continue; after
chunk 1 succeeds and chunk 2 returns 404, decryption is invoked on a
chunk set whose indices are `[1]` — chunk 0 is missing and the transfer
was never declared failed. -/
theorem claim4_counterexample :
    processDownload (fun i =>
      if i = 0 then ChunkResp.status 503
      else if i = 1 then ChunkResp.ok [7]
      else ChunkResp.status 404) = DownloadOutcome.decryptInvoked [(1, [7])] ∧
    [(1, [7])].map Prod.fst ≠ List.range 1 := by
  constructor
  · decide
  · decide

/-- C4 (amended): whenever `processDownload` hands a chunk set to the
decryption logic, the set is nonempty and strictly ascending in chunk
index (the sequential loop preserves order); accounting for every index
`0..N-1` is NOT guaranteed — mid-stream errors, empty bodies and
timeouts leave gaps. -/
theorem claim4_sorted (oracle : Nat → ChunkResp) (chunks : List (Nat × List Nat))
    (h : processDownload oracle = DownloadOutcome.decryptInvoked chunks) :
    chunks ≠ [] ∧ chunks.Pairwise (fun a b => a.1 < b.1) :=
  processDownload_sorted oracle chunks h

theorem claim4_witness :
    ([(0, [5])] : List (Nat × List Nat)) ≠ [] ∧
    ([(0, [5])] : List (Nat × List Nat)).Pairwise (fun a b => a.1 < b.1) :=
  claim4_sorted (fun i => if i = 0 then ChunkResp.ok [5] else ChunkResp.status 404)
    [(0, [5])] (by decide)

/-- C5 (code_bug): resuming a 5-chunk batch whose chunks 0..2 are
persisted as completed performs 5 network transfers, not the 2 the spec
promises: `handleResumeUpload` calls `uploadFile`, which re-initialises
every chunk state to `uploaded: false` and never reads the persisted
`ChunkState` records, so the skip-if-uploaded check can never fire. -/
theorem claim5_resume_retransfers :
    handleResumeUpload
      (⟨true, ChunkStatus.completed, 0⟩ :: ⟨true, ChunkStatus.completed, 0⟩ ::
        ⟨true, ChunkStatus.completed, 0⟩ :: ⟨false, ChunkStatus.pending, 0⟩ ::
        [⟨false, ChunkStatus.pending, 0⟩]) 5 (fun _ _ => true) =
      UploadOutcome.success 5 ∧
    (5 : Nat) ≠ 5 - 3 := by
  constructor
  · decide
  · decide

/-- C6 (confirmed): concatenating the chunks produced by
`prepareFileChunks` in index order reproduces the blob exactly, for
every blob and every chunk size `s > 0`. -/
theorem claim6_split_roundtrip (b : List Nat) (s : Nat) (hs : 0 < s) :
    (prepareFileChunks b s).flatten = b := by
  unfold prepareFileChunks
  exact flatten_slicesOf hs

theorem claim6_witness :
    (prepareFileChunks [1, 2, 3, 4, 5] 2).flatten = [1, 2, 3, 4, 5] :=
  claim6_split_roundtrip [1, 2, 3, 4, 5] 2 (by decide)

/-- C7 (confirmed): two invocations of `encryptFile` with distinct
12-byte IVs produce distinct ciphertext streams for any AEAD primitive,
since every branch of `encryptFile` prefixes the stream with the IV;
the source generates the IV freshly at random on every invocation. -/
theorem claim7_nonce_freshness (enc : List Nat → List Nat → List Nat → List Nat)
    (key iv1 iv2 file : List Nat) (h1 : iv1.length = 12) (h2 : iv2.length = 12)
    (hne : iv1 ≠ iv2) :
    encryptFile enc key iv1 file ≠ encryptFile enc key iv2 file := by
  intro he
  have e1 := encryptFile_take_iv enc key file h1
  have e2 := encryptFile_take_iv enc key file h2
  rw [he] at e1
  exact hne (by rw [← e1, e2])

theorem claim7_witness :
    encryptFile toyEnc [] (List.replicate 12 0) [0] ≠
      encryptFile toyEnc [] (1 :: List.replicate 11 0) [0] :=
  claim7_nonce_freshness toyEnc [] (List.replicate 12 0) (1 :: List.replicate 11 0) [0]
    (by decide) (by decide) (by decide)

/-- C8 (counterexample): on a 10-chunk batch with exactly one
permanently failing chunk, neither `failed > 10%` (1 > 1 is false) nor
`failed > 5` holds, yet the batch ends in error: the final completeness
check throws `Upload incomplete` for any permanently failed chunk. -/
theorem claim8_counterexample :
    uploadFile 10 (fun i _ => i != 0) = UploadOutcome.incomplete 12 ∧
    ¬ ((10 : Nat) / 10 < 1 ∨ (5 : Nat) < 1) := by
  constructor
  · decide
  · decide

/-- C8 (amended): a failing chunk is retried while under the 3-attempt
limit (a chunk succeeds iff one of its three attempts succeeds); the
mid-upload abort fires exactly when the number of permanently failed
chunks exceeds 10% of the chunks or exceeds 5; but the batch ends in
error whenever at least one chunk permanently fails — the upload
succeeds iff no chunk permanently fails. -/
theorem claim8_retry_threshold (n : Nat) (ok : Nat → Nat → Bool) :
    ((∃ t, uploadFile n ok = UploadOutcome.tooManyFailures t) ↔
      (n / 10 < permFailCount n ok ∨ 5 < permFailCount n ok)) ∧
    ((∃ t, uploadFile n ok = UploadOutcome.success t) ↔ permFailCount n ok = 0) ∧
    (∀ g : Nat → Bool, (runChunk g).1 = true ↔
      (g 0 = true ∨ g 1 = true ∨ g 2 = true)) := by
  have h := uploadFile_spec n ok
  refine ⟨?_, h.2, fun g => runChunk_succ_iff⟩
  rw [h.1, min_lt_iff]
  exact or_comm

theorem claim8_witness :
    ∃ t, uploadFile 20 (fun _ _ => true) = UploadOutcome.success t :=
  (claim8_retry_threshold 20 (fun _ _ => true)).2.1.mpr (by decide)

/-- C9 (confirmed): `prepareFileChunks` produces exactly
`ceil(len/chunkSize)` chunks; every chunk except the last has length
exactly `chunkSize`; the last chunk has length `len % chunkSize`, or
exactly `chunkSize` when the size divides evenly — never a spurious
zero-length chunk. -/
theorem claim9_chunk_sizes (b : List Nat) (s : Nat) (hs : 0 < s) :
    (prepareFileChunks b s).length = (b.length + s - 1) / s ∧
    (∀ c ∈ (prepareFileChunks b s).dropLast, c.length = s) ∧
    (0 < b.length →
      (prepareFileChunks b s).getLast?.map List.length =
        some (if b.length % s = 0 then s else b.length % s)) := by
  unfold prepareFileChunks
  exact ⟨slicesOf_length, slicesOf_dropLast_length hs,
    fun hb => slicesOf_getLast_length hs hb⟩

theorem claim9_witness :
    (prepareFileChunks (List.replicate (10 * 1024 * 1024) 0) (5 * 1024 * 1024)).length =
      2 := by
  have h := (claim9_chunk_sizes (List.replicate (10 * 1024 * 1024) 0)
    (5 * 1024 * 1024) (by decide)).1
  rw [h, List.length_replicate]

/-- C10 (counterexample): a partial update that mentions `updatedAt`
with value 5 is not honoured: the stored record's `updatedAt` is the
call time 99, because `saveUploadState` always overwrites `updatedAt`
with `Date.now()` after spreading the update. -/
theorem claim10_counterexample :
    (saveUploadState
      (some ⟨"b", [], "", 0, 0, UploadStatus.pending, 1, 1, []⟩) "b"
      ⟨none, none, none, none, none, none, none, some 5, none⟩ 99).updatedAt = 99 ∧
    (99 : Nat) ≠ 5 := by
  constructor
  · rfl
  · decide

/-- C10 (amended): the stored record agrees with the partial update on
every field the update mentions except `updatedAt` (always set to the
call time); every unmentioned field keeps the base record's value; and
when no record exists the call behaves exactly as if the default record
had been created first. -/
theorem claim10_save_frame (existing : Option UploadStateR) (batchId : String)
    (u : UploadStateUpdate) (now : Nat) :
    ((saveUploadState existing batchId u now).updatedAt = now) ∧
    (∀ v, u.batchId = some v → (saveUploadState existing batchId u now).batchId = v) ∧
    (u.batchId = none → (saveUploadState existing batchId u now).batchId =
      (existing.getD (defaultUploadState batchId now)).batchId) ∧
    (∀ v, u.fileIds = some v → (saveUploadState existing batchId u now).fileIds = v) ∧
    (u.fileIds = none → (saveUploadState existing batchId u now).fileIds =
      (existing.getD (defaultUploadState batchId now)).fileIds) ∧
    (∀ v, u.encryptionKey = some v →
      (saveUploadState existing batchId u now).encryptionKey = v) ∧
    (u.encryptionKey = none → (saveUploadState existing batchId u now).encryptionKey =
      (existing.getD (defaultUploadState batchId now)).encryptionKey) ∧
    (∀ v, u.totalSize = some v → (saveUploadState existing batchId u now).totalSize = v) ∧
    (u.totalSize = none → (saveUploadState existing batchId u now).totalSize =
      (existing.getD (defaultUploadState batchId now)).totalSize) ∧
    (∀ v, u.uploadedSize = some v →
      (saveUploadState existing batchId u now).uploadedSize = v) ∧
    (u.uploadedSize = none → (saveUploadState existing batchId u now).uploadedSize =
      (existing.getD (defaultUploadState batchId now)).uploadedSize) ∧
    (∀ v, u.status = some v → (saveUploadState existing batchId u now).status = v) ∧
    (u.status = none → (saveUploadState existing batchId u now).status =
      (existing.getD (defaultUploadState batchId now)).status) ∧
    (∀ v, u.createdAt = some v → (saveUploadState existing batchId u now).createdAt = v) ∧
    (u.createdAt = none → (saveUploadState existing batchId u now).createdAt =
      (existing.getD (defaultUploadState batchId now)).createdAt) ∧
    (∀ v, u.metadata = some v → (saveUploadState existing batchId u now).metadata = v) ∧
    (u.metadata = none → (saveUploadState existing batchId u now).metadata =
      (existing.getD (defaultUploadState batchId now)).metadata) ∧
    (existing = none → saveUploadState existing batchId u now =
      saveUploadState (some (defaultUploadState batchId now)) batchId u now) := by
  refine ⟨rfl, ?_, ?_, ?_, ?_, ?_, ?_, ?_, ?_, ?_, ?_, ?_, ?_, ?_, ?_, ?_, ?_, ?_⟩
  all_goals intros
  all_goals simp_all [saveUploadState, spreadUpdate]

theorem claim10_witness :
    (saveUploadState none "x" ⟨none, none, none, some 7, none, none, none, none, none⟩
      42).updatedAt = 42 :=
  (claim10_save_frame none "x" ⟨none, none, none, some 7, none, none, none, none, none⟩
    42).1

end FileSh
